import Mathlib

/-
Verification of the vanishing-ideal computation in `2D.py` / `poly.py`
(both files contain the identical core functions `monomials_up_to_degree`,
`divides` and `nullspace_polynomials`; `2D.py` adds plotting only).

The Python code works on SymPy expressions over exact rationals.  The
shallow embedding below represents
  * a monomial `x**i * y**j` as the exponent pair `(i, j) : ℕ × ℕ`,
  * a point as a pair of rationals,
  * a SymPy `Matrix` as its list of rows (`List (List ℚ)`) together with
    the column count SymPy infers (`Matrix(rows)` has as many columns as
    the first row, and `Matrix([])` is 0×0, so the column count of an
    empty row list is 0),
  * the polynomial `sum(c * m for c, m in zip(vec, monos))` as the list
    `vec.zip monos` of coefficient/monomial pairs (`sp.factor` returns an
    expression equal to its argument, so it is the identity on the
    represented polynomial).
SymPy's `Matrix.rref` returns the reduced row echelon form, which is a
unique matrix, so it is embedded as a standard Gauss-Jordan elimination
over ℚ; `Matrix.nullspace` is embedded with SymPy's exact basis
construction: one vector per non-pivot column, in increasing column
order, with entry 1 at the free column and `-reduced[piv_row, free]` at
each pivot column.
-/

attribute [local semireducible] Rat.add Rat.mul Rat.inv Rat.sub

namespace VanishingIdeal

/-- Exponent pair `(i, j)` representing the monomial `x^i * y^j`. -/
abbrev Mono := ℕ × ℕ

/-- Embedding of `monomials_up_to_degree` from `2D.py`/`poly.py`:
`for total in range(deg+1): for i in range(total+1): append(x**i * y**(total-i))`. -/
def monomials_up_to_degree (deg : ℕ) : List Mono :=
  (List.range (deg + 1)).flatMap fun total =>
    (List.range (total + 1)).map fun i => (i, total - i)

/-- Symbols that can occur as keys of SymPy's `as_powers_dict` for a
monomial in `x`, `y`: the generators and the base `1` (for the constant
monomial, since `x**0 * y**0` evaluates to the SymPy integer `1`). -/
inductive PSym where
  | X : PSym
  | Y : PSym
  | One : PSym
deriving DecidableEq

/-- Embedding of SymPy's `as_powers_dict` on a monomial `x^i * y^j`.
For `i, j > 0` the expression is a `Mul` and the dict is `x: i, y: j`;
if one exponent is 0 that factor is absent from the simplified
expression, so its key is absent; for `i = j = 0` the expression is the
SymPy integer `1`, whose `as_base_exp` is `(1, -1)` (SymPy's
`Rational.as_base_exp` returns `(q, -1)` whenever the numerator `p`
equals 1, and `1 = 1/1` has `p = 1`), giving the dict `1: -1`.
Exponent values are integers to accommodate that `-1`. -/
def as_powers_dict (m : Mono) : List (PSym × ℤ) :=
  if m.1 = 0 ∧ m.2 = 0 then [(PSym.One, -1)]
  else
    (if m.1 ≠ 0 then [(PSym.X, (m.1 : ℤ))] else []) ++
      (if m.2 ≠ 0 then [(PSym.Y, (m.2 : ℤ))] else [])

/-- Embedding of `pd.get(sym, 0)` on such a dict. -/
def pdGet (pd : List (PSym × ℤ)) (s : PSym) : ℤ :=
  match pd.lookup s with
  | some e => e
  | none => 0

/-- Embedding of `divides(m1, m2)` from `2D.py`/`poly.py`:
`all(pd2.get(sym, 0) >= exp for sym, exp in pd1.items())`. -/
def divides (m1 m2 : Mono) : Bool :=
  (as_powers_dict m1).all fun se => pdGet (as_powers_dict m2) se.1 ≥ se.2

/-- The monomial filter inside `nullspace_polynomials`:
`[m for m in monos if not any(hasattr(lt, "as_powers_dict") and divides(lt, m)
for lt in lead_terms)]`.  Every recorded lead term is a SymPy expression, so
the `hasattr` test is always true. -/
def filterMonos (lead_terms : List Mono) (monos : List Mono) : List Mono :=
  monos.filter fun m => !(lead_terms.any fun lt => divides lt m)

/-- Value of the monomial `x^i * y^j` at a point, as produced by
`m.subs(\x7bx: xi, y: yi\x7d)`. -/
def evalMono (pt : ℚ × ℚ) (m : Mono) : ℚ :=
  pt.1 ^ m.1 * pt.2 ^ m.2

/-- Embedding of the evaluation-matrix construction
`sp.Matrix([[m.subs(...) for m in monos_filt] for xi, yi in pts])`
as its list of rows. -/
def buildMatrix (pts : List (ℚ × ℚ)) (monos : List Mono) : List (List ℚ) :=
  pts.map fun pt => monos.map fun m => evalMono pt m

/-- Column count SymPy assigns to `sp.Matrix(rows)`: the length of the
first row; in particular `sp.Matrix([])` is the 0×0 matrix. -/
def matrixCols (rows : List (List ℚ)) : ℕ :=
  match rows with
  | [] => 0
  | r :: _ => r.length

/-- A matrix row. -/
abbrev Row := List ℚ

/-- Entry of a row at a column index (0 outside the row, which never
happens for the rows the algorithm builds). -/
def entry (r : Row) (c : ℕ) : ℚ :=
  r.getD c 0

/-- Multiply a row by a scalar. -/
def rowScale (a : ℚ) (r : Row) : Row :=
  r.map fun b => a * b

/-- Subtract two rows elementwise. -/
def rowSub (r s : Row) : Row :=
  List.zipWith (fun a b => a - b) r s

/-- One elimination step: clear column `c` of row `r` using the
normalized pivot row `p` (which has a 1 in column `c`). -/
def elimAt (p : Row) (c : ℕ) (r : Row) : Row :=
  rowSub r (rowScale (entry r c) p)

/-- Dot product of two rows (used to state that null-space vectors
annihilate the matrix rows). -/
def dot (u v : Row) : ℚ :=
  (List.zipWith (fun a b => a * b) u v).sum

/-- Find the first row with a non-zero entry in column `c` (SymPy's pivot
search for exact arithmetic scans down for the first non-zero candidate);
return it together with the remaining rows in order. -/
def pickPivot : List Row → ℕ → Option (Row × List Row)
  | [], _ => none
  | r :: rs, c =>
    if entry r c = 0 then
      match pickPivot rs c with
      | none => none
      | some (p, rest) => some (p, r :: rest)
    else some (r, rs)

/-- Gauss-Jordan elimination over the remaining column list `cs`.
`pivs` are the finished (normalized, mutually reduced) pivot rows,
`pcols` their pivot columns, `rows` the still-unprocessed rows.  Returns
the non-zero rows of the reduced row echelon form together with the pivot
column list, which is exactly the data SymPy's `nullspace` reads off the
result of `rref` (the remaining rows of the RREF are zero rows, which
`nullspace` never consults). -/
def rrefAux (pivs : List Row) (rows : List Row) (pcols : List ℕ) :
    List ℕ → List Row × List ℕ
  | [] => (pivs, pcols)
  | c :: cs =>
    match pickPivot rows c with
    | none => rrefAux pivs rows pcols cs
    | some (r, rest) =>
      let p := rowScale (entry r c)⁻¹ r
      rrefAux (pivs.map (elimAt p c) ++ [p]) (rest.map (elimAt p c))
        (pcols ++ [c]) cs

/-- The reduced row echelon form (non-zero rows, pivot columns) of a
matrix with `ncols` columns; embedding of SymPy's `Matrix.rref`, whose
result is the unique RREF of the matrix. -/
def rref (rows : List Row) (ncols : ℕ) : List Row × List ℕ :=
  rrefAux [] rows [] (List.range ncols)

/-- Entry `reduced[piv_row, f]` of the RREF, addressed by the pivot
column `c` owned by that pivot row: look `c` up in the pivot-column list
and take the `f`-entry of the corresponding pivot row. -/
def pivEntry (pr : List Row) (pc : List ℕ) (c f : ℕ) : ℚ :=
  match List.lookup c (pc.zip pr) with
  | some row => entry row f
  | none => 0

/-- The null-space basis vector SymPy builds for the free column `f`:
`vec = [0]*cols; vec[f] = 1; for piv_row, piv_col in enumerate(pivots):
vec[piv_col] -= reduced[piv_row, f]`. -/
def nsVec (pr : List Row) (pc : List ℕ) (cols f : ℕ) : Row :=
  (List.range cols).map fun c =>
    (if c = f then 1 else 0) - pivEntry pr pc c f

/-- Embedding of SymPy's `Matrix.nullspace`: one basis vector per
non-pivot column, in increasing column order. -/
def nullspace (rows : List Row) (cols : ℕ) : List Row :=
  let rp := rref rows cols
  ((List.range cols).filter fun c => decide (c ∉ rp.2)).map fun f =>
    nsVec rp.1 rp.2 cols f

/-- A polynomial as the algorithm represents it: the formal combination
`sum(c * m for c, m in zip(vec, monos_filt))`, kept as the list of
coefficient/monomial pairs. -/
abbrev Poly := List (ℚ × Mono)

/-- Build the polynomial of a null-space vector over the filtered
monomial list.  `sp.factor` only re-writes the expression into factored
form without changing the polynomial it denotes, so it does not appear in
the representation. -/
def mkPoly (vec : Row) (monos : List Mono) : Poly :=
  vec.zip monos

/-- Value of such a polynomial at a point. -/
def evalPoly (p : Poly) (e : ℚ × ℚ) : ℚ :=
  (p.map fun cm => cm.1 * evalMono e cm.2).sum

/-- Coefficient of a monomial in the represented polynomial (SymPy's
`Poly(p, x, y)` collects equal monomials, so the coefficient is the sum
over all pairs carrying that monomial). -/
def polyCoeff (p : Poly) (m : Mono) : ℚ :=
  ((p.filter fun cm => cm.2 = m).map fun cm => cm.1).sum

/-- The monomials occurring in the pair list, without duplicates. -/
def polyMonos (p : Poly) : List Mono :=
  (p.map fun cm => cm.2).dedup

/-- The support of the represented polynomial: monomials with non-zero
collected coefficient.  These are exactly the monomials of
`sp.Poly(p, x, y)`. -/
def polySupport (p : Poly) : List Mono :=
  (polyMonos p).filter fun m => decide (polyCoeff p m ≠ 0)

/-- SymPy's `Poly` monomial order for generators `(x, y)` is `lex` by
default: exponent tuples compare lexicographically, `x` before `y`.
`lexGe a b` says `a` comes no later than `b` in the descending `lex`
listing produced by `Poly.monoms()`. -/
def lexGe (a b : Mono) : Prop :=
  b.1 < a.1 ∨ (b.1 = a.1 ∧ b.2 ≤ a.2)

instance : DecidableRel lexGe := fun a b => by
  unfold lexGe; exact inferInstance

instance : IsTotal Mono lexGe where
  total a b := by unfold lexGe; omega

instance : IsTrans Mono lexGe where
  trans a b c hab hbc := by
    unfold lexGe at hab hbc ⊢; omega

/-- Embedding of the lead-term extraction
`sp.Poly(p, x, y).monoms()[0]`: `monoms()` lists the support in
descending `lex` order, and the code takes its first element.  (SymPy
represents the zero polynomial with the single exponent tuple `(0, 0)`,
hence the default; the algorithm never produces a zero polynomial.) -/
def ltOf (p : Poly) : Mono :=
  (List.insertionSort lexGe (polySupport p)).headD (0, 0)

/-- One record of the stream: `yield d, monos_filt, polys`. -/
structure DegRecord where
  degree : ℕ
  monos : List Mono
  polys : List Poly
deriving DecidableEq

instance : Inhabited DegRecord := ⟨⟨0, [], []⟩⟩

/-- One degree iteration of `nullspace_polynomials`: generate and filter
monomials, build the evaluation matrix, compute its null space, convert
the basis vectors to polynomials, and append each polynomial's lead term
to the accumulator.  Returns the yielded record and the updated
`lead_terms` accumulator. -/
def step (pts : List (ℚ × ℚ)) (L : List Mono) (d : ℕ) :
    DegRecord × List Mono :=
  let monos_filt := filterMonos L (monomials_up_to_degree d)
  let M := buildMatrix pts monos_filt
  let ker := nullspace M (matrixCols M)
  let polys := ker.map fun vec => mkPoly vec monos_filt
  (⟨d, monos_filt, polys⟩, L ++ polys.map ltOf)

/-- The degree loop `for d in range(max_degree + 1)` threading the
`lead_terms` accumulator. -/
def runAux (pts : List (ℚ × ℚ)) (L : List Mono) :
    List ℕ → List DegRecord
  | [] => []
  | d :: ds => (step pts L d).1 :: runAux pts (step pts L d).2 ds

/-- Embedding of `nullspace_polynomials(pts, max_degree)`: the list of
records the generator yields, starting from an empty `lead_terms`
accumulator. -/
def nullspace_polynomials (pts : List (ℚ × ℚ)) (max_degree : ℕ) :
    List DegRecord :=
  runAux pts [] (List.range (max_degree + 1))

/-- The `lead_terms` accumulator state at the start of the degree-`d`
iteration of `nullspace_polynomials`. -/
def leadTermsAux (pts : List (ℚ × ℚ)) (L : List Mono) :
    List ℕ → List Mono
  | [] => L
  | d :: ds => leadTermsAux pts (step pts L d).2 ds

/-- Lead-term state at the start of degree `d`. -/
def leadTermsAt (pts : List (ℚ × ℚ)) (d : ℕ) : List Mono :=
  leadTermsAux pts [] (List.range d)

/-- Modelled from the spec (§3, §4.5), for comparison with the code's
lead-term choice: the leading monomial under the graded order — primarily
total degree, secondarily the x-exponent tie-break.  The counterexample
below is tie-free (the two candidate monomials have different total
degrees), so the direction of the secondary tie-break is immaterial. -/
def specGradedGe (a b : Mono) : Prop :=
  b.1 + b.2 < a.1 + a.2 ∨ (b.1 + b.2 = a.1 + a.2 ∧ b.1 ≤ a.1)

instance : DecidableRel specGradedGe := fun a b => by
  unfold specGradedGe; exact inferInstance

instance : IsTotal Mono specGradedGe where
  total a b := by unfold specGradedGe; omega

instance : IsTrans Mono specGradedGe where
  trans a b c hab hbc := by
    unfold specGradedGe at hab hbc ⊢; omega

/-- Modelled from the spec: the leading monomial of a polynomial under
the graded order of §3. -/
def specLeadMono (p : Poly) : Mono :=
  (List.insertionSort specGradedGe (polySupport p)).headD (0, 0)

/-- Concrete point list used to separate the code's lead-term choice from
the spec's graded order: three points on the parabola `x = y^2`. -/
def cexPts : List (ℚ × ℚ) :=
  [(0, 0), (1, 1), (1, -1)]

/-- The degree-2 record of the run on `cexPts`. -/
def cexRecord : DegRecord :=
  (nullspace_polynomials cexPts 2).getD 2 default

/-- The first vanishing polynomial of that record (it is `y^2 - x`). -/
def cexPoly : Poly :=
  cexRecord.polys.getD 0 []

/-! ### Helper lemmas -/

theorem monos_succ (d : ℕ) :
    monomials_up_to_degree (d + 1) =
      monomials_up_to_degree d ++
        ((List.range (d + 1 + 1)).map fun i => (i, d + 1 - i)) := by
  have h : List.range (d + 1 + 1) = List.range (d + 1) ++ [d + 1] :=
    List.range_succ (d + 1)
  unfold monomials_up_to_degree
  conv_lhs => rw [h]
  rw [List.flatMap_append]
  simp only [List.flatMap_cons, List.flatMap_nil, List.append_nil]

theorem monos_length (d : ℕ) :
    (monomials_up_to_degree d).length = (d + 1) * (d + 2) / 2 := by
  induction d with
  | zero => rfl
  | succ d ih =>
    rw [monos_succ, List.length_append, ih, List.length_map,
      List.length_range]
    obtain ⟨k, hk⟩ := Nat.even_mul_succ_self (d + 1)
    have h2 : (d + 1 + 1) * (d + 1 + 2) = (d + 1) * (d + 2) + 2 * (d + 2) := by
      ring
    have h3 : (d + 1) * (d + 1 + 1) = (d + 1) * (d + 2) := by ring
    rw [h3] at hk
    rw [h2]
    omega

theorem runAux_degrees (pts : List (ℚ × ℚ)) :
    ∀ (ds : List ℕ) (L : List Mono),
      (runAux pts L ds).map DegRecord.degree = ds := by
  intro ds
  induction ds with
  | nil => intro L; rfl
  | cons d ds ih =>
    intro L
    show d :: (runAux pts (step pts L d).2 ds).map DegRecord.degree = d :: ds
    rw [ih]

theorem step_snd (pts : List (ℚ × ℚ)) (L : List Mono) (d : ℕ) :
    (step pts L d).2 = L ++ (step pts L d).1.polys.map ltOf := rfl

theorem leadTermsAux_append (pts : List (ℚ × ℚ)) :
    ∀ (ds : List ℕ) (L : List Mono) (d : ℕ),
      leadTermsAux pts L (ds ++ [d]) = (step pts (leadTermsAux pts L ds) d).2 := by
  intro ds
  induction ds with
  | nil => intro L d; rfl
  | cons a ds ih => intro L d; exact ih (step pts L a).2 d

theorem leadTermsAt_succ (pts : List (ℚ × ℚ)) (d : ℕ) :
    leadTermsAt pts (d + 1) = (step pts (leadTermsAt pts d) d).2 := by
  unfold leadTermsAt
  rw [List.range_succ, leadTermsAux_append]

theorem step_nil_pts (d : ℕ) :
    step ([] : List (ℚ × ℚ)) [] d =
      (⟨d, monomials_up_to_degree d, []⟩, []) := by
  unfold step filterMonos buildMatrix matrixCols nullspace rref rrefAux
  simp

theorem runAux_nil_pts :
    ∀ (ds : List ℕ) (R : DegRecord),
      R ∈ runAux ([] : List (ℚ × ℚ)) [] ds →
        R.polys = [] ∧ R.monos = monomials_up_to_degree R.degree := by
  intro ds
  induction ds with
  | nil => intro R hR; cases hR
  | cons d ds ih =>
    intro R hR
    have hstep := step_nil_pts d
    rw [runAux, hstep] at hR
    rcases List.mem_cons.mp hR with h | h
    · subst h; exact ⟨rfl, rfl⟩
    · exact ih R h

theorem beqXX : (PSym.X == PSym.X) = true := rfl

theorem beqXY : (PSym.X == PSym.Y) = false := rfl

theorem beqYX : (PSym.Y == PSym.X) = false := rfl

theorem beqYY : (PSym.Y == PSym.Y) = true := rfl

theorem beqOX : (PSym.One == PSym.X) = false := rfl

theorem beqOY : (PSym.One == PSym.Y) = false := rfl

theorem beqOO : (PSym.One == PSym.One) = true := rfl

theorem beqXO : (PSym.X == PSym.One) = false := rfl

theorem beqYO : (PSym.Y == PSym.One) = false := rfl

theorem pdGet_X (m : Mono) : pdGet (as_powers_dict m) PSym.X = (m.1 : ℤ) := by
  obtain ⟨i, j⟩ := m
  by_cases hi : i = 0 <;> by_cases hj : j = 0 <;>
    simp [as_powers_dict, pdGet, List.lookup, hi, hj, beqXX, beqXY, beqYX,
      beqYY, beqOX, beqOY, beqOO, beqXO, beqYO]

theorem pdGet_Y (m : Mono) : pdGet (as_powers_dict m) PSym.Y = (m.2 : ℤ) := by
  obtain ⟨i, j⟩ := m
  by_cases hi : i = 0 <;> by_cases hj : j = 0 <;>
    simp [as_powers_dict, pdGet, List.lookup, hi, hj, beqXX, beqXY, beqYX,
      beqYY, beqOX, beqOY, beqOO, beqXO, beqYO]

theorem pdGet_One_ge (m : Mono) : -1 ≤ pdGet (as_powers_dict m) PSym.One := by
  obtain ⟨i, j⟩ := m
  by_cases hi : i = 0 <;> by_cases hj : j = 0 <;>
    simp [as_powers_dict, pdGet, List.lookup, hi, hj, beqXX, beqXY, beqYX,
      beqYY, beqOX, beqOY, beqOO, beqXO, beqYO]

/-! ### Row and dot-product lemmas -/

theorem length_rowScale (a : ℚ) (r : Row) : (rowScale a r).length = r.length := by
  simp [rowScale]

theorem entry_rowScale (a : ℚ) (r : Row) (c : ℕ) :
    entry (rowScale a r) c = a * entry r c := by
  unfold entry rowScale
  by_cases h : c < r.length
  · rw [List.getD_eq_getElem _ _ (by simpa using h),
      List.getD_eq_getElem _ _ h, List.getElem_map]
  · rw [List.getD_eq_default _ _ (by simpa using Nat.le_of_not_lt h),
      List.getD_eq_default _ _ (Nat.le_of_not_lt h), mul_zero]

theorem entry_rowSub (r s : Row) (h : r.length = s.length) (c : ℕ) :
    entry (rowSub r s) c = entry r c - entry s c := by
  unfold entry rowSub
  by_cases hc : c < r.length
  · rw [List.getD_eq_getElem _ _ (by simp [List.length_zipWith]; omega),
      List.getD_eq_getElem _ _ hc, List.getD_eq_getElem _ _ (by omega),
      List.getElem_zipWith]
  · rw [List.getD_eq_default _ _ (by simp [List.length_zipWith]; omega),
      List.getD_eq_default _ _ (by omega), List.getD_eq_default _ _ (by omega),
      sub_zero]

theorem length_elimAt (p r : Row) (c : ℕ) (h : r.length = p.length) :
    (elimAt p c r).length = r.length := by
  simp [elimAt, rowSub, rowScale, List.length_zipWith, h]

theorem entry_elimAt (p r : Row) (c col : ℕ) (h : r.length = p.length) :
    entry (elimAt p c r) col = entry r col - entry r c * entry p col := by
  unfold elimAt
  rw [entry_rowSub _ _ (by rw [length_rowScale]; exact h), entry_rowScale]

theorem dot_cons (a b : ℚ) (u v : Row) :
    dot (a :: u) (b :: v) = a * b + dot u v := rfl

theorem dot_nil_right (u : Row) : dot u [] = 0 := by
  cases u <;> rfl

theorem dot_rowScale (a : ℚ) (r : Row) : ∀ v, dot (rowScale a r) v = a * dot r v := by
  induction r with
  | nil => intro v; simp [dot, rowScale]
  | cons r0 rs ih =>
    intro v
    cases v with
    | nil => rw [dot_nil_right, dot_nil_right, mul_zero]
    | cons v0 vs =>
      rw [show rowScale a (r0 :: rs) = (a * r0) :: rowScale a rs from rfl,
        dot_cons, dot_cons, ih vs]
      ring

theorem dot_rowSub (r : Row) :
    ∀ (s : Row), r.length = s.length → ∀ v, dot (rowSub r s) v = dot r v - dot s v := by
  induction r with
  | nil =>
    intro s h v
    cases s with
    | nil => simp [dot, rowSub]
    | cons s0 ss => simp at h
  | cons r0 rs ih =>
    intro s h v
    cases s with
    | nil => simp at h
    | cons s0 ss =>
      cases v with
      | nil => rw [dot_nil_right, dot_nil_right, dot_nil_right]; ring
      | cons v0 vs =>
        have hlen : rs.length = ss.length := by simpa using h
        rw [show rowSub (r0 :: rs) (s0 :: ss) = (r0 - s0) :: rowSub rs ss from rfl,
          dot_cons, dot_cons, dot_cons, ih ss hlen vs]
        ring

theorem dot_elimAt (p r : Row) (c : ℕ) (h : r.length = p.length) (v : Row) :
    dot (elimAt p c r) v = dot r v - entry r c * dot p v := by
  unfold elimAt
  rw [dot_rowSub _ _ (by rw [length_rowScale]; exact h), dot_rowScale]

theorem dot_zero_row (u : Row) (h : ∀ x ∈ u, x = 0) : ∀ v, dot u v = 0 := by
  induction u with
  | nil => intro v; rfl
  | cons u0 us ih =>
    intro v
    cases v with
    | nil => exact dot_nil_right _
    | cons v0 vs =>
      rw [dot_cons, h u0 (List.mem_cons_self u0 us),
        ih (fun x hx => h x (List.mem_cons_of_mem u0 hx)) vs]
      ring

theorem row_all_zero (u : Row) (n : ℕ) (hu : u.length = n)
    (h : ∀ c, c < n → entry u c = 0) : ∀ x ∈ u, x = 0 := by
  intro x hx
  obtain ⟨i, hi, hxi⟩ := List.mem_iff_getElem.mp hx
  have := h i (by omega)
  rw [entry, List.getD_eq_getElem _ _ hi] at this
  rw [← hxi]
  exact this

/-! ### pickPivot lemmas -/

theorem pickPivot_none :
    ∀ (rows : List Row) (c : ℕ), pickPivot rows c = none →
      ∀ u ∈ rows, entry u c = 0 := by
  intro rows
  induction rows with
  | nil => intro c h u hu; cases hu
  | cons r rs ih =>
    intro c h u hu
    unfold pickPivot at h
    by_cases hr : entry r c = 0
    · rw [if_pos hr] at h
      cases hpp : pickPivot rs c with
      | none =>
        rcases List.mem_cons.mp hu with h1 | h1
        · rw [h1]; exact hr
        · exact ih c hpp u h1
      | some val => rw [hpp] at h; cases h
    · rw [if_neg hr] at h; cases h

theorem pickPivot_some :
    ∀ (rows : List Row) (c : ℕ) (r : Row) (rest : List Row),
      pickPivot rows c = some (r, rest) →
        entry r c ≠ 0 ∧ rows.Perm (r :: rest) := by
  intro rows
  induction rows with
  | nil => intro c r rest h; cases h
  | cons a rs ih =>
    intro c r rest h
    unfold pickPivot at h
    by_cases ha : entry a c = 0
    · rw [if_pos ha] at h
      cases hpp : pickPivot rs c with
      | none => rw [hpp] at h; cases h
      | some pr =>
        obtain ⟨p, rest2⟩ := pr
        rw [hpp] at h
        have h2 : (p, a :: rest2) = (r, rest) := Option.some.inj h
        have hp : p = r := congrArg Prod.fst h2
        have hrest : a :: rest2 = rest := congrArg Prod.snd h2
        obtain ⟨hne, hperm⟩ := ih c p rest2 hpp
        subst hp
        subst hrest
        exact ⟨hne, ((hperm.cons a).trans (List.Perm.swap p a rest2))⟩
    · rw [if_neg ha] at h
      have h2 : (a, rs) = (r, rest) := Option.some.inj h
      have hp : a = r := congrArg Prod.fst h2
      have hrest : rs = rest := congrArg Prod.snd h2
      subst hp
      subst hrest
      exact ⟨ha, List.Perm.refl _⟩

/-! ### getD utilities -/

theorem getD_map_lt {α β : Type} (g : α → β) (l : List α) (k : ℕ) (d : α)
    (dd : β) (hk : k < l.length) : (l.map g).getD k dd = g (l.getD k d) := by
  rw [List.getD_eq_getElem _ _ (by simpa using hk), List.getD_eq_getElem _ _ hk,
    List.getElem_map]

theorem getD_append_lt {α : Type} (l l2 : List α) (k : ℕ) (d : α)
    (hk : k < l.length) : (l ++ l2).getD k d = l.getD k d := by
  rw [List.getD_eq_getElem _ _ (by simp; omega), List.getD_eq_getElem _ _ hk,
    List.getElem_append_left hk]

theorem getD_append_last {α : Type} (l : List α) (x : α) (d : α) (k : ℕ)
    (hk : k = l.length) : (l ++ [x]).getD k d = x := by
  subst hk
  rw [List.getD_eq_getElem _ _ (by simp)]
  exact List.getElem_concat_length l x l.length rfl _

theorem getD_mem {α : Type} (l : List α) (k : ℕ) (d : α) (hk : k < l.length) :
    l.getD k d ∈ l := by
  rw [List.getD_eq_getElem _ _ hk]
  exact List.getElem_mem hk

/-! ### Soundness of the Gauss-Jordan elimination -/

theorem rrefAux_sound (n : ℕ) :
    ∀ (cs : List ℕ) (pivs rows : List Row) (pcols : List ℕ),
      (∀ u ∈ rows, u.length = n) →
      (∀ u ∈ pivs, u.length = n) →
      pivs.length = pcols.length →
      (∀ c ∈ pcols, c < n) →
      (∀ c ∈ cs, c < n) →
      List.Nodup cs →
      (∀ c ∈ pcols, c ∉ cs) →
      (∀ k kk, k < pivs.length → kk < pcols.length →
        entry (pivs.getD k []) (pcols.getD kk 0) = if k = kk then 1 else 0) →
      (∀ u ∈ rows, ∀ c, c < n → c ∉ cs → entry u c = 0) →
      (∀ u ∈ (rrefAux pivs rows pcols cs).1, u.length = n) ∧
        (rrefAux pivs rows pcols cs).1.length =
          (rrefAux pivs rows pcols cs).2.length ∧
        (∀ c ∈ (rrefAux pivs rows pcols cs).2, c < n) ∧
        (∀ k kk, k < (rrefAux pivs rows pcols cs).1.length →
          kk < (rrefAux pivs rows pcols cs).2.length →
          entry ((rrefAux pivs rows pcols cs).1.getD k [])
              ((rrefAux pivs rows pcols cs).2.getD kk 0) =
            if k = kk then 1 else 0) ∧
        (∀ v, (∀ w ∈ (rrefAux pivs rows pcols cs).1, dot w v = 0) →
          (∀ w ∈ pivs, dot w v = 0) ∧ ∀ w ∈ rows, dot w v = 0) := by
  intro cs
  induction cs with
  | nil =>
    intro pivs rows pcols hrl hpl hlen hpb hcb hnd hdisj hoh hz
    refine ⟨hpl, hlen, hpb, hoh, ?_⟩
    intro v hv
    refine ⟨hv, ?_⟩
    intro w hw
    exact dot_zero_row w
      (row_all_zero w n (hrl w hw) fun c hc => hz w hw c hc (by simp)) v
  | cons c cs ih =>
    intro pivs rows pcols hrl hpl hlen hpb hcb hnd hdisj hoh hz
    cases hpp : pickPivot rows c with
    | none =>
      have heq : rrefAux pivs rows pcols (c :: cs) = rrefAux pivs rows pcols cs := by
        simp only [rrefAux, hpp]
      rw [heq]
      apply ih pivs rows pcols hrl hpl hlen hpb
        (fun c2 hc2 => hcb c2 (List.mem_cons_of_mem c hc2))
        (List.Nodup.of_cons hnd)
        (fun c2 hc2 hin => hdisj c2 hc2 (List.mem_cons_of_mem c hin))
        hoh
      intro u hu c2 hc2 hnotin
      by_cases hcc : c2 = c
      · subst hcc
        exact pickPivot_none rows c2 hpp u hu
      · refine hz u hu c2 hc2 ?_
        intro hin
        rcases List.mem_cons.mp hin with h1 | h1
        · exact hcc h1
        · exact hnotin h1
    | some pr =>
      obtain ⟨r, rest⟩ := pr
      obtain ⟨hrc, hperm⟩ := pickPivot_some rows c r rest hpp
      have heq : rrefAux pivs rows pcols (c :: cs) =
          rrefAux
            (pivs.map (elimAt (rowScale (entry r c)⁻¹ r) c) ++
              [rowScale (entry r c)⁻¹ r])
            (rest.map (elimAt (rowScale (entry r c)⁻¹ r) c))
            (pcols ++ [c]) cs := by
        simp only [rrefAux, hpp]
      set p : Row := rowScale (entry r c)⁻¹ r with hpdef
      have hrmem : r ∈ rows := hperm.mem_iff.mpr (List.mem_cons_self r rest)
      have hrlen : r.length = n := hrl r hrmem
      have hcn : c < n := hcb c (List.mem_cons_self c cs)
      have hcnotcs : c ∉ cs := (List.nodup_cons.mp hnd).1
      have hplen : p.length = n := by
        rw [hpdef, length_rowScale, hrlen]
      have hpc1 : entry p c = 1 := by
        rw [hpdef, entry_rowScale]
        exact inv_mul_cancel₀ hrc
      have hrz : ∀ c2 ∈ pcols, entry r c2 = 0 := fun c2 h2 =>
        hz r hrmem c2 (hpb c2 h2) (hdisj c2 h2)
      have hpz : ∀ c2 ∈ pcols, entry p c2 = 0 := fun c2 h2 => by
        rw [hpdef, entry_rowScale, hrz c2 h2, mul_zero]
      have hrestmem : ∀ u ∈ rest, u ∈ rows := fun u hu =>
        hperm.mem_iff.mpr (List.mem_cons_of_mem r hu)
      rw [heq]
      have H1 : ∀ u ∈ rest.map (elimAt p c), u.length = n := by
        intro u hu
        obtain ⟨u0, hu0, rfl⟩ := List.mem_map.mp hu
        rw [length_elimAt p u0 c (by rw [hrl u0 (hrestmem u0 hu0), hplen])]
        exact hrl u0 (hrestmem u0 hu0)
      have H2 : ∀ u ∈ pivs.map (elimAt p c) ++ [p], u.length = n := by
        intro u hu
        rcases List.mem_append.mp hu with h1 | h1
        · obtain ⟨u0, hu0, rfl⟩ := List.mem_map.mp h1
          rw [length_elimAt p u0 c (by rw [hpl u0 hu0, hplen])]
          exact hpl u0 hu0
        · rw [List.mem_singleton.mp h1]
          exact hplen
      have H3 : (pivs.map (elimAt p c) ++ [p]).length = (pcols ++ [c]).length := by
        simp [hlen]
      have H4 : ∀ c2 ∈ pcols ++ [c], c2 < n := by
        intro c2 h2
        rcases List.mem_append.mp h2 with h1 | h1
        · exact hpb c2 h1
        · rw [List.mem_singleton.mp h1]
          exact hcn
      have H7 : ∀ c2 ∈ pcols ++ [c], c2 ∉ cs := by
        intro c2 h2
        rcases List.mem_append.mp h2 with h1 | h1
        · exact fun hin => hdisj c2 h1 (List.mem_cons_of_mem c hin)
        · rw [List.mem_singleton.mp h1]
          exact hcnotcs
      have H8 : ∀ k kk, k < (pivs.map (elimAt p c) ++ [p]).length →
          kk < (pcols ++ [c]).length →
          entry ((pivs.map (elimAt p c) ++ [p]).getD k [])
              ((pcols ++ [c]).getD kk 0) = if k = kk then 1 else 0 := by
        intro k kk hk hkk
        have hk2 : k < pivs.length + 1 := by simpa using hk
        have hkk2 : kk < pcols.length + 1 := by simpa using hkk
        rcases Nat.lt_succ_iff_lt_or_eq.mp hk2 with hklt | hkeq <;>
          rcases Nat.lt_succ_iff_lt_or_eq.mp hkk2 with hkklt | hkkeq
        · have e1 : (pivs.map (elimAt p c) ++ [p]).getD k [] =
              elimAt p c (pivs.getD k []) := by
            rw [getD_append_lt _ _ _ _ (by simpa using hklt),
              getD_map_lt (elimAt p c) pivs k [] [] hklt]
          have e2 : (pcols ++ [c]).getD kk 0 = pcols.getD kk 0 :=
            getD_append_lt _ _ _ _ hkklt
          rw [e1, e2, entry_elimAt p _ c _
              (by rw [hpl _ (getD_mem pivs k [] hklt), hplen]),
            hpz _ (getD_mem pcols kk 0 hkklt), mul_zero, sub_zero]
          exact hoh k kk hklt hkklt
        · have e1 : (pivs.map (elimAt p c) ++ [p]).getD k [] =
              elimAt p c (pivs.getD k []) := by
            rw [getD_append_lt _ _ _ _ (by simpa using hklt),
              getD_map_lt (elimAt p c) pivs k [] [] hklt]
          have e2 : (pcols ++ [c]).getD kk 0 = c :=
            getD_append_last _ _ _ _ hkkeq
          have hne : k ≠ kk := by omega
          rw [e1, e2, entry_elimAt p _ c _
              (by rw [hpl _ (getD_mem pivs k [] hklt), hplen]),
            hpc1, mul_one, sub_self, if_neg hne]
        · have e1 : (pivs.map (elimAt p c) ++ [p]).getD k [] = p :=
            getD_append_last _ _ _ _ (by simpa using hkeq)
          have e2 : (pcols ++ [c]).getD kk 0 = pcols.getD kk 0 :=
            getD_append_lt _ _ _ _ hkklt
          have hne : k ≠ kk := by omega
          rw [e1, e2, hpz _ (getD_mem pcols kk 0 hkklt), if_neg hne]
        · have e1 : (pivs.map (elimAt p c) ++ [p]).getD k [] = p :=
            getD_append_last _ _ _ _ (by simpa using hkeq)
          have e2 : (pcols ++ [c]).getD kk 0 = c :=
            getD_append_last _ _ _ _ hkkeq
          have hkkk : k = kk := by omega
          rw [e1, e2, hpc1, if_pos hkkk]
      have H9 : ∀ u ∈ rest.map (elimAt p c), ∀ c2, c2 < n → c2 ∉ cs →
          entry u c2 = 0 := by
        intro u hu c2 hc2n hc2cs
        obtain ⟨u0, hu0, rfl⟩ := List.mem_map.mp hu
        have hu0len : u0.length = n := hrl u0 (hrestmem u0 hu0)
        rw [entry_elimAt p u0 c c2 (by rw [hu0len, hplen])]
        by_cases hcc : c2 = c
        · subst hcc
          rw [hpc1, mul_one, sub_self]
        · have hnot : c2 ∉ c :: cs := by
            intro hin
            rcases List.mem_cons.mp hin with h1 | h1
            · exact hcc h1
            · exact hc2cs h1
          have h1 : entry u0 c2 = 0 := hz u0 (hrestmem u0 hu0) c2 hc2n hnot
          have h2 : entry p c2 = 0 := by
            rw [hpdef, entry_rowScale, hz r hrmem c2 hc2n hnot, mul_zero]
          rw [h1, h2, mul_zero, sub_zero]
      obtain ⟨G1, G2, G3, G4, G5⟩ := ih (pivs.map (elimAt p c) ++ [p])
        (rest.map (elimAt p c)) (pcols ++ [c]) H1 H2 H3 H4
        (fun c2 hc2 => hcb c2 (List.mem_cons_of_mem c hc2))
        (List.Nodup.of_cons hnd) H7 H8 H9
      refine ⟨G1, G2, G3, G4, ?_⟩
      intro v hv
      obtain ⟨hvpivs, hvrows⟩ := G5 v hv
      have hpv : dot p v = 0 :=
        hvpivs p (List.mem_append_right _ (List.mem_singleton.mpr rfl))
      have hrv : dot r v = 0 := by
        have h1 : dot p v = (entry r c)⁻¹ * dot r v := by
          rw [hpdef, dot_rowScale]
        have h2 := hpv
        rw [h1] at h2
        exact (mul_eq_zero.mp h2).resolve_left (inv_ne_zero hrc)
      constructor
      · intro w hw
        have hthis : dot (elimAt p c w) v = 0 :=
          hvpivs _ (List.mem_append_left _ (List.mem_map_of_mem _ hw))
        rw [dot_elimAt p w c (by rw [hpl w hw, hplen]) v, hpv, mul_zero,
          sub_zero] at hthis
        exact hthis
      · intro w hw
        rcases List.mem_cons.mp (hperm.mem_iff.mp hw) with h1 | h1
        · rw [h1]
          exact hrv
        · have hthis : dot (elimAt p c w) v = 0 :=
            hvrows _ (List.mem_map_of_mem _ h1)
          rw [dot_elimAt p w c (by rw [hrl w hw, hplen]) v, hpv, mul_zero,
            sub_zero] at hthis
          exact hthis

/-! ### Sum lemmas for the null-space vectors -/

theorem sum_map_zero (l : List ℕ) : (l.map fun _ => (0 : ℚ)).sum = 0 := by
  induction l with
  | nil => rfl
  | cons a l ih => simp [ih]

theorem sum_map_sub (g h : ℕ → ℚ) (l : List ℕ) :
    (l.map fun c => g c - h c).sum = (l.map g).sum - (l.map h).sum := by
  induction l with
  | nil => simp
  | cons a l ih =>
    rw [List.map_cons, List.sum_cons, ih, List.map_cons, List.sum_cons,
      List.map_cons, List.sum_cons]
    ring

theorem sum_map_ite_eq (c0 : ℕ) (A : ℚ) (g : ℕ → ℚ) :
    ∀ l : List ℕ, c0 ∈ l → l.Nodup →
      (l.map fun c => if c = c0 then A else g c).sum =
        A + ((l.map g).sum - g c0) := by
  intro l
  induction l with
  | nil => intro h; cases h
  | cons a l ih =>
    intro hmem hnd
    rcases List.mem_cons.mp hmem with h1 | h1
    · have ha : a = c0 := h1.symm
      subst ha
      have hnotin : a ∉ l := (List.nodup_cons.mp hnd).1
      have htail : (l.map fun c => if c = a then A else g c) = l.map g := by
        apply List.map_congr_left
        intro c hc
        apply if_neg
        intro hcc
        rw [hcc] at hc
        exact hnotin hc
      rw [List.map_cons, List.sum_cons, if_pos rfl, htail, List.map_cons,
        List.sum_cons]
      ring
    · have hac : a ∉ l := (List.nodup_cons.mp hnd).1
      have hne : a ≠ c0 := by
        intro h
        rw [h] at hac
        exact hac h1
      rw [List.map_cons, List.sum_cons, if_neg hne,
        ih h1 (List.Nodup.of_cons hnd), List.map_cons, List.sum_cons]
      ring

theorem dot_map_range (w : Row) (n : ℕ) (g : ℕ → ℚ) (hw : w.length = n) :
    dot w ((List.range n).map g) =
      ((List.range n).map fun c => entry w c * g c).sum := by
  unfold dot
  congr 1
  apply List.ext_getElem
  · simp [List.length_zipWith, hw]
  · intro i h1 h2
    have hin : i < n := by simpa using h2
    have hiw : i < w.length := by omega
    rw [List.getElem_zipWith, List.getElem_map, List.getElem_map,
      List.getElem_range,
      show entry w i = w[i] from List.getD_eq_getElem w 0 hiw]

theorem lookup_zip_none (c : ℕ) :
    ∀ (pc : List ℕ) (pr : List Row), c ∉ pc →
      List.lookup c (pc.zip pr) = none := by
  intro pc
  induction pc with
  | nil => intro pr h; rfl
  | cons c0 pc ih =>
    intro pr h
    cases pr with
    | nil => rfl
    | cons r0 pr =>
      have hne : c ≠ c0 := fun hcc => h (hcc ▸ List.mem_cons_self c0 pc)
      rw [List.zip_cons_cons]
      simp only [List.lookup, beq_false_of_ne hne]
      exact ih pr fun hin => h (List.mem_cons_of_mem c0 hin)

theorem pivEntry_none (pr : List Row) (pc : List ℕ) (c f : ℕ) (h : c ∉ pc) :
    pivEntry pr pc c f = 0 := by
  unfold pivEntry
  rw [lookup_zip_none c pc pr h]

theorem pivEntry_cons (r0 : Row) (pr : List Row) (c0 : ℕ) (pc : List ℕ)
    (c f : ℕ) :
    pivEntry (r0 :: pr) (c0 :: pc) c f =
      if c = c0 then entry r0 f else pivEntry pr pc c f := by
  unfold pivEntry
  rw [List.zip_cons_cons]
  by_cases h : c = c0
  · subst h
    simp [List.lookup]
  · simp [List.lookup, beq_false_of_ne h, h]

theorem sum_mul_pivEntry (w : Row) (f n : ℕ) :
    ∀ (pc : List ℕ) (pr : List Row), pc.Nodup → (∀ c ∈ pc, c < n) →
      ((List.range n).map fun c => entry w c * pivEntry pr pc c f).sum =
        ((pc.zip pr).map fun q => entry w q.1 * entry q.2 f).sum := by
  intro pc
  induction pc with
  | nil =>
    intro pr _ _
    have hz : ∀ c, pivEntry pr [] c f = 0 := fun c =>
      pivEntry_none pr [] c f (by simp)
    have heq : ((List.range n).map fun c => entry w c * pivEntry pr [] c f) =
        (List.range n).map fun _ => (0 : ℚ) := by
      apply List.map_congr_left
      intro c _
      rw [hz c, mul_zero]
    rw [heq, sum_map_zero]
    rfl
  | cons c0 pc ih =>
    intro pr hnd hb
    cases pr with
    | nil =>
      have hz : ∀ c, pivEntry [] (c0 :: pc) c f = 0 := fun c => by
        unfold pivEntry
        rfl
      have heq :
          ((List.range n).map fun c => entry w c * pivEntry [] (c0 :: pc) c f) =
          (List.range n).map fun _ => (0 : ℚ) := by
        apply List.map_congr_left
        intro c _
        rw [hz c, mul_zero]
      rw [heq, sum_map_zero]
      rfl
    | cons r0 pr =>
      have hc0n : c0 < n := hb c0 (List.mem_cons_self _ _)
      have hc0notpc : c0 ∉ pc := (List.nodup_cons.mp hnd).1
      have hcongr :
          ((List.range n).map fun c =>
            entry w c * pivEntry (r0 :: pr) (c0 :: pc) c f) =
          (List.range n).map fun c =>
            if c = c0 then entry w c0 * entry r0 f
            else entry w c * pivEntry pr pc c f := by
        apply List.map_congr_left
        intro c _
        rw [pivEntry_cons]
        by_cases h : c = c0
        · subst h
          rw [if_pos rfl, if_pos rfl]
        · rw [if_neg h, if_neg h]
      rw [hcongr,
        sum_map_ite_eq c0 (entry w c0 * entry r0 f)
          (fun c => entry w c * pivEntry pr pc c f) (List.range n)
          (List.mem_range.mpr hc0n) (List.nodup_range n),
        pivEntry_none pr pc c0 f hc0notpc, mul_zero, sub_zero,
        ih pr (List.Nodup.of_cons hnd)
          (fun c hc => hb c (List.mem_cons_of_mem _ hc)),
        List.zip_cons_cons, List.map_cons, List.sum_cons]

theorem onehot_zip_sum (w : Row) (f : ℕ) :
    ∀ (pc : List ℕ) (pr : List Row) (k : ℕ), k < pc.length →
      pc.length = pr.length →
      entry w (pc.getD k 0) = 1 →
      (∀ j, j < pc.length → j ≠ k → entry w (pc.getD j 0) = 0) →
      ((pc.zip pr).map fun q => entry w q.1 * entry q.2 f).sum =
        entry (pr.getD k []) f := by
  intro pc
  induction pc with
  | nil =>
    intro pr k hk
    exact absurd hk (by simp)
  | cons c0 pc ih =>
    intro pr k hk hlen h1 h0
    cases pr with
    | nil => simp at hlen
    | cons r0 pr =>
      rw [List.zip_cons_cons, List.map_cons, List.sum_cons]
      cases k with
      | zero =>
        have h1c : entry w c0 = 1 := by simpa using h1
        have htail :
            ((pc.zip pr).map fun q => entry w q.1 * entry q.2 f).sum = 0 := by
          apply List.sum_eq_zero
          intro x hx
          obtain ⟨q, hq, rfl⟩ := List.mem_map.mp hx
          obtain ⟨j, hj, hqj⟩ := List.mem_iff_getElem.mp hq
          have hjpc : j < pc.length := by
            simp [List.length_zip] at hj
            omega
          have hq1 : q.1 = pc.getD j 0 := by
            rw [← hqj, List.getElem_zip, List.getD_eq_getElem _ _ hjpc]
          have hzero : entry w q.1 = 0 := by
            rw [hq1]
            have := h0 (j + 1) (by simp; omega) (by omega)
            rwa [List.getD_cons_succ] at this
          rw [hzero, zero_mul]
        rw [h1c, one_mul, htail, add_zero, List.getD_cons_zero]
      | succ k =>
        have h0head : entry w c0 = 0 := by
          have := h0 0 (by simp) (by omega)
          rwa [List.getD_cons_zero] at this
        have h1tail : entry w (pc.getD k 0) = 1 := by
          rwa [List.getD_cons_succ] at h1
        have h0tail : ∀ j, j < pc.length → j ≠ k → entry w (pc.getD j 0) = 0 := by
          intro j hj hne
          have := h0 (j + 1) (by simp; omega) (by omega)
          rwa [List.getD_cons_succ] at this
        rw [h0head, zero_mul, zero_add,
          ih pr k (by simpa using hk) (by simpa using hlen) h1tail h0tail,
          List.getD_cons_succ]

theorem pcols_nodup (pr : List Row) (pc : List ℕ)
    (hlen : pr.length = pc.length)
    (hoh : ∀ k kk, k < pr.length → kk < pc.length →
      entry (pr.getD k []) (pc.getD kk 0) = if k = kk then 1 else 0) :
    pc.Nodup := by
  rw [List.nodup_iff_injective_get]
  intro i j hij
  by_contra hne
  have hv : i.1 ≠ j.1 := fun h => hne (Fin.ext h)
  have hi : i.1 < pr.length := by omega
  have h1 : entry (pr.getD i.1 []) (pc.getD i.1 0) = 1 := by
    have := hoh i.1 i.1 hi i.2
    simpa using this
  have heqcols : pc.getD i.1 0 = pc.getD j.1 0 := by
    rw [List.getD_eq_getElem _ _ i.2, List.getD_eq_getElem _ _ j.2]
    simpa [List.get_eq_getElem] using hij
  have h2 := hoh i.1 j.1 hi j.2
  rw [← heqcols, h1, if_neg hv] at h2
  exact one_ne_zero h2

theorem dot_nsVec_zero (pr : List Row) (pc : List ℕ) (n f : ℕ)
    (hprl : ∀ u ∈ pr, u.length = n)
    (hlen : pr.length = pc.length)
    (hpb : ∀ c ∈ pc, c < n)
    (hoh : ∀ k kk, k < pr.length → kk < pc.length →
      entry (pr.getD k []) (pc.getD kk 0) = if k = kk then 1 else 0)
    (hf : f < n) (hfpc : f ∉ pc) :
    ∀ w ∈ pr, dot w (nsVec pr pc n f) = 0 := by
  have hnd : pc.Nodup := pcols_nodup pr pc hlen hoh
  intro w hw
  obtain ⟨k, hk, hwk⟩ := List.mem_iff_getElem.mp hw
  have hwgetD : pr.getD k [] = w := by
    rw [List.getD_eq_getElem _ _ hk, hwk]
  have hwlen : w.length = n := hprl w hw
  unfold nsVec
  rw [dot_map_range w n _ hwlen]
  have hsplit :
      ((List.range n).map fun c =>
        entry w c * ((if c = f then 1 else 0) - pivEntry pr pc c f)) =
      (List.range n).map fun c =>
        (if c = f then entry w f else 0) - entry w c * pivEntry pr pc c f := by
    apply List.map_congr_left
    intro c _
    by_cases h : c = f
    · subst h
      rw [if_pos rfl, if_pos rfl]
      ring
    · rw [if_neg h, if_neg h]
      ring
  rw [hsplit, sum_map_sub,
    sum_map_ite_eq f (entry w f) (fun _ => (0 : ℚ)) (List.range n)
      (List.mem_range.mpr hf) (List.nodup_range n),
    sum_map_zero,
    sum_mul_pivEntry w f n pc pr hnd hpb,
    onehot_zip_sum w f pc pr k (by omega) hlen.symm
      (by
        have := hoh k k hk (by omega)
        rw [hwgetD] at this
        simpa using this)
      (by
        intro j hj hne
        have := hoh k j hk hj
        rw [hwgetD, if_neg (fun h => hne h.symm)] at this
        exact this),
    hwgetD]
  ring

theorem nullspace_dot (rows : List Row) (n : ℕ)
    (hl : ∀ u ∈ rows, u.length = n) :
    ∀ v ∈ nullspace rows n, ∀ u ∈ rows, dot u v = 0 := by
  intro v hv u hu
  have hv2 : v ∈ ((List.range n).filter fun c =>
      decide (c ∉ (rref rows n).2)).map fun ff =>
      nsVec (rref rows n).1 (rref rows n).2 n ff := hv
  obtain ⟨f, hfmem, rfl⟩ := List.mem_map.mp hv2
  have hff := List.mem_filter.mp hfmem
  have hf : f < n := List.mem_range.mp hff.1
  have hfpc : f ∉ (rref rows n).2 := by simpa using hff.2
  have hrr : rref rows n = rrefAux [] rows [] (List.range n) := rfl
  obtain ⟨G1, G2, G3, G4, G5⟩ := rrefAux_sound n (List.range n) [] rows []
    hl (fun u hu => absurd hu (List.not_mem_nil u)) rfl
    (fun c hc => absurd hc (List.not_mem_nil c))
    (fun c hc => List.mem_range.mp hc) (List.nodup_range n)
    (fun c hc => absurd hc (List.not_mem_nil c))
    (fun k kk hk hkk => absurd hk (by simp))
    (fun u hu c hcn hcnotin => absurd (List.mem_range.mpr hcn) hcnotin)
  rw [hrr] at hfpc ⊢
  have hann := dot_nsVec_zero (rrefAux [] rows [] (List.range n)).1
    (rrefAux [] rows [] (List.range n)).2 n f G1 G2 G3 G4 hf hfpc
  exact (G5 _ fun w hw => hann w hw).2 u hu

/-! ### Polynomials built from null-space vectors -/

theorem nsVec_length (pr : List Row) (pc : List ℕ) (n f : ℕ) :
    (nsVec pr pc n f).length = n := by
  simp [nsVec]

theorem nsVec_entry_f (pr : List Row) (pc : List ℕ) (n f : ℕ)
    (hf : f < n) (hfpc : f ∉ pc) : entry (nsVec pr pc n f) f = 1 := by
  unfold nsVec entry
  rw [List.getD_eq_getElem _ _ (by simpa using hf), List.getElem_map,
    List.getElem_range, if_pos rfl, pivEntry_none pr pc f f hfpc, sub_zero]

theorem nullspace_vec_form (rows : List Row) (n : ℕ) :
    ∀ v ∈ nullspace rows n, ∃ f, f < n ∧ entry v f = 1 ∧ v.length = n := by
  intro v hv
  have hv2 : v ∈ ((List.range n).filter fun c =>
      decide (c ∉ (rref rows n).2)).map fun f =>
      nsVec (rref rows n).1 (rref rows n).2 n f := hv
  obtain ⟨f, hfmem, rfl⟩ := List.mem_map.mp hv2
  have hff := List.mem_filter.mp hfmem
  have hf : f < n := List.mem_range.mp hff.1
  have hfpc : f ∉ (rref rows n).2 := by simpa using hff.2
  exact ⟨f, hf, nsVec_entry_f _ _ n f hf hfpc, nsVec_length _ _ n f⟩

theorem monos_nodup (d : ℕ) : (monomials_up_to_degree d).Nodup := by
  unfold monomials_up_to_degree
  rw [List.nodup_flatMap]
  constructor
  · intro t _
    apply List.Nodup.map
    · intro a b h
      exact congrArg Prod.fst h
    · exact List.nodup_range _
  · apply List.Pairwise.imp ?_ (List.pairwise_lt_range _)
    intro t1 t2 hlt
    intro a ha1 ha2
    simp only [List.mem_map, List.mem_range] at ha1 ha2
    obtain ⟨i1, hi1, he1⟩ := ha1
    obtain ⟨i2, hi2, he2⟩ := ha2
    have h1 : a.1 + a.2 = t1 := by
      rw [← he1]
      simp
      omega
    have h2 : a.1 + a.2 = t2 := by
      rw [← he2]
      simp
      omega
    omega

theorem filterMonos_nodup (L : List Mono) (d : ℕ) :
    (filterMonos L (monomials_up_to_degree d)).Nodup :=
  List.Nodup.filter _ (monos_nodup d)

theorem polyCoeff_cons (c : ℚ) (mm : Mono) (rest : Poly) (m : Mono) :
    polyCoeff ((c, mm) :: rest) m =
      (if mm = m then c else 0) + polyCoeff rest m := by
  by_cases h : mm = m <;>
    simp [polyCoeff, List.filter_cons, h]

theorem polyCoeff_not_mem (m : Mono) (ms : List Mono) (vs : Row)
    (hm : m ∉ ms) : polyCoeff (mkPoly vs ms) m = 0 := by
  unfold polyCoeff mkPoly
  have hfilter : (vs.zip ms).filter (fun cm => decide (cm.2 = m)) = [] := by
    rw [List.filter_eq_nil_iff]
    intro cm hcm
    simp only [decide_eq_true_eq]
    intro hm2
    obtain ⟨c, mm⟩ := cm
    have hmm : mm ∈ ms := (List.of_mem_zip hcm).2
    rw [show (c, mm).2 = mm from rfl] at hm2
    rw [hm2] at hmm
    exact hm hmm
  rw [hfilter]
  rfl

theorem polyCoeff_zip :
    ∀ (monos : List Mono) (vec : Row) (f : ℕ), f < monos.length →
      monos.Nodup → vec.length = monos.length →
      polyCoeff (mkPoly vec monos) (monos.getD f (0, 0)) = entry vec f := by
  intro monos
  induction monos with
  | nil =>
    intro vec f hf
    exact absurd hf (by simp)
  | cons m0 ms ih =>
    intro vec f hf hnd hlen
    cases vec with
    | nil => simp at hlen
    | cons v0 vs =>
      have hlen2 : vs.length = ms.length := by simpa using hlen
      have hm0 : m0 ∉ ms := (List.nodup_cons.mp hnd).1
      cases f with
      | zero =>
        rw [List.getD_cons_zero,
          show mkPoly (v0 :: vs) (m0 :: ms) = (v0, m0) :: mkPoly vs ms from rfl,
          polyCoeff_cons, if_pos rfl, polyCoeff_not_mem m0 ms vs hm0,
          show entry (v0 :: vs) 0 = v0 from rfl]
        ring
      | succ f =>
        have htarget : ms.getD f (0, 0) ∈ ms :=
          getD_mem ms f (0, 0) (by simpa using hf)
        rw [List.getD_cons_succ,
          show mkPoly (v0 :: vs) (m0 :: ms) = (v0, m0) :: mkPoly vs ms from rfl,
          polyCoeff_cons, if_neg (fun h => hm0 (by rw [h]; exact htarget)),
          ih vs f (by simpa using hf) (List.Nodup.of_cons hnd) hlen2,
          show entry (v0 :: vs) (f + 1) = entry vs f from rfl]
        ring

theorem lexGe_refl (a : Mono) : lexGe a a :=
  Or.inr ⟨rfl, le_rfl⟩

theorem insertionSort_head_max (l : List Mono) (hl : l ≠ []) :
    (List.insertionSort lexGe l).headD (0, 0) ∈ l ∧
      ∀ m ∈ l, lexGe ((List.insertionSort lexGe l).headD (0, 0)) m := by
  have hperm := List.perm_insertionSort lexGe l
  have hsorted := List.sorted_insertionSort lexGe l
  cases hs : List.insertionSort lexGe l with
  | nil =>
    rw [hs] at hperm
    exact absurd hperm.symm.eq_nil hl
  | cons h t =>
    rw [hs] at hperm hsorted
    constructor
    · exact hperm.mem_iff.mp (List.mem_cons_self h t)
    · intro m hm
      rcases List.mem_cons.mp (hperm.mem_iff.mpr hm) with h1 | h1
      · rw [h1]
        exact lexGe_refl h
      · exact List.rel_of_sorted_cons hsorted m h1

theorem mkPoly_lead (vec : Row) (monos : List Mono) (f : ℕ)
    (hnd : monos.Nodup) (hlen : vec.length = monos.length)
    (hf : f < monos.length) (h1 : entry vec f = 1) :
    ltOf (mkPoly vec monos) ∈ polySupport (mkPoly vec monos) ∧
      ∀ m ∈ polySupport (mkPoly vec monos), lexGe (ltOf (mkPoly vec monos)) m := by
  have hcoeff : polyCoeff (mkPoly vec monos) (monos.getD f (0, 0)) = 1 := by
    rw [polyCoeff_zip monos vec f hf hnd hlen, h1]
  have hmono : monos.getD f (0, 0) ∈ polyMonos (mkPoly vec monos) := by
    unfold polyMonos mkPoly
    rw [List.map_snd_zip vec monos (le_of_eq hlen.symm)]
    exact List.mem_dedup.mpr (getD_mem monos f (0, 0) hf)
  have hsupp : monos.getD f (0, 0) ∈ polySupport (mkPoly vec monos) := by
    unfold polySupport
    rw [List.mem_filter]
    refine ⟨hmono, ?_⟩
    rw [hcoeff]
    simp
  have hne : polySupport (mkPoly vec monos) ≠ [] := by
    intro h
    rw [h] at hsupp
    cases hsupp
  exact insertionSort_head_max _ hne

/-! ### The driver's record structure -/

theorem mem_runAux (pts : List (ℚ × ℚ)) :
    ∀ (ds : List ℕ) (L : List Mono) (R : DegRecord), R ∈ runAux pts L ds →
      ∃ L2 d, R = (step pts L2 d).1 := by
  intro ds
  induction ds with
  | nil =>
    intro L R h
    cases h
  | cons d ds ih =>
    intro L R h
    rcases List.mem_cons.mp h with h1 | h1
    · exact ⟨L, d, h1⟩
    · exact ih _ R h1

theorem buildMatrix_row_lengths (pts : List (ℚ × ℚ)) (monos : List Mono) :
    ∀ u ∈ buildMatrix pts monos,
      u.length = matrixCols (buildMatrix pts monos) := by
  have hall : ∀ u ∈ buildMatrix pts monos, u.length = monos.length := by
    intro u hu
    obtain ⟨pt, _, rfl⟩ := List.mem_map.mp hu
    simp
  intro u hu
  rw [hall u hu]
  cases hM : buildMatrix pts monos with
  | nil =>
    rw [hM] at hu
    cases hu
  | cons r0 rest2 =>
    have h0 : r0.length = monos.length := by
      apply hall
      rw [hM]
      exact List.mem_cons_self _ _
    rw [show matrixCols (r0 :: rest2) = r0.length from rfl, h0]

theorem evalPoly_zip (e : ℚ × ℚ) : ∀ (vec : Row) (monos : List Mono),
    evalPoly (mkPoly vec monos) e = dot (monos.map (evalMono e)) vec := by
  intro vec
  induction vec with
  | nil =>
    intro monos
    cases monos <;> rfl
  | cons c vec ih =>
    intro monos
    cases monos with
    | nil => rfl
    | cons m monos =>
      rw [show mkPoly (c :: vec) (m :: monos) = (c, m) :: mkPoly vec monos from rfl,
        show evalPoly ((c, m) :: mkPoly vec monos) e =
          c * evalMono e m + evalPoly (mkPoly vec monos) e from rfl,
        List.map_cons, dot_cons, ih monos]
      ring

theorem step_polys_vanish (pts : List (ℚ × ℚ)) (L : List Mono) (d : ℕ) :
    ∀ p ∈ (step pts L d).1.polys, ∀ e ∈ pts, evalPoly p e = 0 := by
  intro p hp e he
  have hp2 : p ∈ (nullspace
      (buildMatrix pts (filterMonos L (monomials_up_to_degree d)))
      (matrixCols (buildMatrix pts (filterMonos L (monomials_up_to_degree d))))).map
      (fun vec => mkPoly vec (filterMonos L (monomials_up_to_degree d))) := hp
  obtain ⟨vec, hvec, rfl⟩ := List.mem_map.mp hp2
  rw [evalPoly_zip]
  exact nullspace_dot _ _ (buildMatrix_row_lengths pts _) vec hvec _
    (List.mem_map_of_mem _ he)

theorem step_polys_lead (pts : List (ℚ × ℚ)) (L : List Mono) (d : ℕ) :
    ∀ p ∈ (step pts L d).1.polys,
      ltOf p ∈ polySupport p ∧ ∀ m ∈ polySupport p, lexGe (ltOf p) m := by
  intro p hp
  have hp2 : p ∈ (nullspace
      (buildMatrix pts (filterMonos L (monomials_up_to_degree d)))
      (matrixCols (buildMatrix pts (filterMonos L (monomials_up_to_degree d))))).map
      (fun vec => mkPoly vec (filterMonos L (monomials_up_to_degree d))) := hp
  obtain ⟨vec, hvec, rfl⟩ := List.mem_map.mp hp2
  cases pts with
  | nil =>
    have hnil : nullspace
        (buildMatrix ([] : List (ℚ × ℚ)) (filterMonos L (monomials_up_to_degree d)))
        (matrixCols (buildMatrix ([] : List (ℚ × ℚ))
          (filterMonos L (monomials_up_to_degree d)))) = [] := rfl
    rw [hnil] at hvec
    cases hvec
  | cons pt0 ptsrest =>
    have hcols : matrixCols (buildMatrix (pt0 :: ptsrest)
        (filterMonos L (monomials_up_to_degree d))) =
        (filterMonos L (monomials_up_to_degree d)).length := by
      simp [buildMatrix, matrixCols]
    rw [hcols] at hvec
    obtain ⟨f, hf, hone, hlen⟩ := nullspace_vec_form _ _ vec hvec
    exact mkPoly_lead vec _ f (filterMonos_nodup L d) hlen hf hone

/-! ### Claims -/

/-- Claim C2 (code_bug evaluation): at degree bound 1 the code returns the
monomial list `[1, y, x]`, i.e. within the degree-1 group the x-exponent
is ascending (0 then 1).  The claim, like the function's own docstring
("total degree first, then x-exponent descending"), requires `[1, x, y]`. -/
theorem claim_C2_eval :
    monomials_up_to_degree 1 = [(0, 0), (0, 1), (1, 0)] := by decide

/-- Claim C3: `divides(m1, m2)` returns `True` iff the exponents of `m2`
dominate those of `m1` componentwise; in particular the constant monomial
`(0, 0)` divides every monomial (its powers dict is the quirk `1: -1`,
and every dict value, 0 or -1, is `>= -1`). -/
theorem claim_C3 (m1 m2 : Mono) :
    divides m1 m2 = true ↔ (m1.1 ≤ m2.1 ∧ m1.2 ≤ m2.2) := by
  obtain ⟨i1, j1⟩ := m1
  have hone := pdGet_One_ge m2
  have hX := pdGet_X m2
  have hY := pdGet_Y m2
  unfold divides
  by_cases h1 : i1 = 0 <;> by_cases h2 : j1 = 0
  · subst h1; subst h2
    rw [show as_powers_dict (0, 0) = [(PSym.One, -1)] from rfl]
    simp only [List.all_cons, List.all_nil, Bool.and_true,
      decide_eq_true_eq, ge_iff_le]
    omega
  · subst h1
    have hm1 : as_powers_dict (0, j1) = [(PSym.Y, (j1 : ℤ))] := by
      simp [as_powers_dict, h2]
    rw [hm1]
    simp only [List.all_cons, List.all_nil, Bool.and_true,
      decide_eq_true_eq, ge_iff_le, hY]
    omega
  · subst h2
    have hm1 : as_powers_dict (i1, 0) = [(PSym.X, (i1 : ℤ))] := by
      simp [as_powers_dict, h1]
    rw [hm1]
    simp only [List.all_cons, List.all_nil, Bool.and_true,
      decide_eq_true_eq, ge_iff_le, hX]
    omega
  · have hm1 : as_powers_dict (i1, j1) =
        [(PSym.X, (i1 : ℤ)), (PSym.Y, (j1 : ℤ))] := by
      simp [as_powers_dict, h1, h2]
    rw [hm1]
    simp only [List.all_cons, List.all_nil, Bool.and_true,
      Bool.and_eq_true, decide_eq_true_eq, ge_iff_le, hX, hY]
    omega

/-- Claim C4 (amended): on the empty point list `nullspace_polynomials`
runs without faults, but every record carries an empty polynomial list
(SymPy's `Matrix([])` is 0×0, so the null-space basis is empty); the
monomial list of each record is the full unfiltered list of its degree. -/
theorem claim_C4_amended (maxDeg : ℕ) (R : DegRecord)
    (hR : R ∈ nullspace_polynomials ([] : List (ℚ × ℚ)) maxDeg) :
    R.polys = [] ∧ R.monos = monomials_up_to_degree R.degree :=
  runAux_nil_pts (List.range (maxDeg + 1)) R hR

/-- Claim C4 (witness for the amended claim at a concrete input). -/
theorem claim_C4_witness :
    ((nullspace_polynomials ([] : List (ℚ × ℚ)) 1).getD 1 default).polys = [] ∧
      ((nullspace_polynomials ([] : List (ℚ × ℚ)) 1).getD 1 default).monos =
        monomials_up_to_degree
          ((nullspace_polynomials ([] : List (ℚ × ℚ)) 1).getD 1 default).degree :=
  claim_C4_amended 1 _ (by decide)

/-- Claim C4 (counterexample to the claim as stated): on the empty point
list at maxDegree 0, the degree-0 record lists the monomial `1` but
yields no vanishing polynomial at all, so it is false that every monomial
of the filtered list is reported as a vanishing generator. -/
theorem claim_C4_counterexample :
    ((nullspace_polynomials ([] : List (ℚ × ℚ)) 0).getD 0 default).monos =
        [(0, 0)] ∧
      ((nullspace_polynomials ([] : List (ℚ × ℚ)) 0).getD 0 default).polys =
        [] := by decide

/-- Claim C6: for every point list and every maxDegree, the driver
terminates (it is a total function) and yields exactly `maxDegree + 1`
records whose degrees are `0, 1, ..., maxDegree` in order, and the
lead-term accumulator is empty at the start of the degree-0 iteration. -/
theorem claim_C6 (pts : List (ℚ × ℚ)) (maxDeg : ℕ) :
    (nullspace_polynomials pts maxDeg).map DegRecord.degree =
        List.range (maxDeg + 1) ∧
      (nullspace_polynomials pts maxDeg).length = maxDeg + 1 ∧
      leadTermsAt pts 0 = [] := by
  have h := runAux_degrees pts (List.range (maxDeg + 1)) []
  refine ⟨h, ?_, rfl⟩
  have := congrArg List.length h
  simpa using this

/-- Claim C7: the lead-term accumulator is monotone across degree
iterations: the state at the start of degree `d + 1` is the state at the
start of degree `d` with the new lead terms of degree `d` appended, so
every element of the earlier state is in the later one.  (The filtering
step consumes the accumulator purely; only the append extends it.) -/
theorem claim_C7 (pts : List (ℚ × ℚ)) (d : ℕ) :
    leadTermsAt pts (d + 1) =
        leadTermsAt pts d ++
          ((step pts (leadTermsAt pts d) d).1.polys.map ltOf) ∧
      ∀ m ∈ leadTermsAt pts d, m ∈ leadTermsAt pts (d + 1) := by
  have h := leadTermsAt_succ pts d
  constructor
  · rw [h]
    exact step_snd pts (leadTermsAt pts d) d
  · intro m hm
    rw [h, step_snd]
    exact List.mem_append_left _ hm

/-- Claim C7 witness: for the single point `(0, 0)`, the lead term `y`
recorded at degree 1 is still present at the start of degrees 2 and 3. -/
theorem claim_C7_witness :
    (0, 1) ∈ leadTermsAt [((0 : ℚ), 0)] 2 ∧
      (0, 1) ∈ leadTermsAt [((0 : ℚ), 0)] 3 :=
  ⟨by decide, (claim_C7 [((0 : ℚ), 0)] 2).2 (0, 1) (by decide)⟩

/-- Claim C8: the divisibility filter is idempotent: filtering an
already-filtered monomial list with the same lead-term set returns it
unchanged. -/
theorem claim_C8 (L M : List Mono) :
    filterMonos L (filterMonos L M) = filterMonos L M := by
  unfold filterMonos
  rw [List.filter_filter]
  simp

/-- Claim C9: if the filtered monomial list at some degree is empty, the
evaluation matrix is the list of `n` empty rows (an n×0 matrix), the
null-space computation returns the empty basis, and the iteration yields
an empty polynomial list — no error is raised (all functions are total). -/
theorem claim_C9 (pts : List (ℚ × ℚ)) (L : List Mono) (d : ℕ)
    (h : filterMonos L (monomials_up_to_degree d) = []) :
    buildMatrix pts (filterMonos L (monomials_up_to_degree d)) =
        pts.map (fun _ => ([] : List ℚ)) ∧
      nullspace (buildMatrix pts (filterMonos L (monomials_up_to_degree d)))
          (matrixCols
            (buildMatrix pts (filterMonos L (monomials_up_to_degree d)))) =
        [] ∧
      (step pts L d).1.polys = [] := by
  rw [h]
  have hmat : buildMatrix pts ([] : List Mono) =
      pts.map (fun _ => ([] : List ℚ)) := by
    simp [buildMatrix]
  have hcols : matrixCols (buildMatrix pts ([] : List Mono)) = 0 := by
    cases pts <;> simp [buildMatrix, matrixCols]
  have hns : ∀ rows : List Row, nullspace rows 0 = [] := by
    intro rows
    unfold nullspace rref rrefAux
    simp
  refine ⟨hmat, ?_, ?_⟩
  · rw [hcols, hns]
  · show (nullspace (buildMatrix pts (filterMonos L (monomials_up_to_degree d)))
      (matrixCols (buildMatrix pts (filterMonos L (monomials_up_to_degree d))))).map
        (fun vec => mkPoly vec (filterMonos L (monomials_up_to_degree d))) = []
    rw [h, hcols, hns]
    rfl

/-- Claim C9 witness: with lead terms `1, x, y` recorded, every monomial
of degree ≤ 1 is filtered out at the point list `[(1, 2)]`. -/
theorem claim_C9_witness :
    filterMonos [(0, 0), (1, 0), (0, 1)] (monomials_up_to_degree 1) = [] ∧
      (step [((1 : ℚ), 2)] [(0, 0), (1, 0), (0, 1)] 1).1.polys = [] :=
  ⟨by decide,
    (claim_C9 [((1 : ℚ), 2)] [(0, 0), (1, 0), (0, 1)] 1 (by decide)).2.2⟩

/-- Claim C1: every polynomial in every record yielded by
`nullspace_polynomials` evaluates to exactly zero at every point of the
input list (over exact rational coordinates). -/
theorem claim_C1 (pts : List (ℚ × ℚ)) (maxDeg : ℕ) (R : DegRecord)
    (p : Poly) (e : ℚ × ℚ) (hR : R ∈ nullspace_polynomials pts maxDeg)
    (hp : p ∈ R.polys) (he : e ∈ pts) : evalPoly p e = 0 := by
  obtain ⟨L, d, rfl⟩ := mem_runAux pts (List.range (maxDeg + 1)) [] R hR
  exact step_polys_vanish pts L d p hp e he

/-- Claim C1 witness: for the single point `(0, 0)` with maxDegree 1, the
first degree-1 polynomial (the monomial `y`) vanishes at `(0, 0)`. -/
theorem claim_C1_witness :
    (((nullspace_polynomials [((0 : ℚ), 0)] 1).getD 1 default).polys.getD 0 []) ∈
        ((nullspace_polynomials [((0 : ℚ), 0)] 1).getD 1 default).polys ∧
      evalPoly
        (((nullspace_polynomials [((0 : ℚ), 0)] 1).getD 1 default).polys.getD 0 [])
        ((0 : ℚ), 0) = 0 :=
  ⟨by decide,
    claim_C1 [((0 : ℚ), 0)] 1
      ((nullspace_polynomials [((0 : ℚ), 0)] 1).getD 1 default)
      (((nullspace_polynomials [((0 : ℚ), 0)] 1).getD 1 default).polys.getD 0 [])
      ((0 : ℚ), 0) (by decide) (by decide) (by decide)⟩

/-- Claim C5 (amended): the monomial the code records for a produced
vanishing polynomial `p` is the leading monomial of `p` under the `lex`
order with `x` before `y` (largest x-exponent first, ties by larger
y-exponent) — the order SymPy's `Poly.monoms()` uses — not the graded
order of §3: it lies in the support of `p` and dominates every support
monomial in that `lex` order. -/
theorem claim_C5_amended (pts : List (ℚ × ℚ)) (maxDeg : ℕ) (R : DegRecord)
    (p : Poly) (hR : R ∈ nullspace_polynomials pts maxDeg)
    (hp : p ∈ R.polys) :
    ltOf p ∈ polySupport p ∧ ∀ m ∈ polySupport p, lexGe (ltOf p) m := by
  obtain ⟨L, d, rfl⟩ := mem_runAux pts (List.range (maxDeg + 1)) [] R hR
  exact step_polys_lead pts L d p hp

/-- Claim C5 (counterexample to the claim as stated): for the points
`(0,0), (1,1), (1,-1)` the run records, for the produced polynomial
`y^2 - x` of the degree-2 record, the lead monomial `x` (the `lex`
choice of `Poly.monoms()[0]`), while the leading monomial under the
graded order of §3 is `y^2` — the recorded monomial is not the graded
leading monomial. -/
theorem claim_C5_counterexample :
    cexRecord ∈ nullspace_polynomials cexPts 2 ∧
      cexPoly ∈ cexRecord.polys ∧
      ltOf cexPoly = (1, 0) ∧
      specLeadMono cexPoly = (0, 2) ∧
      ltOf cexPoly ≠ specLeadMono cexPoly := by
  refine ⟨by decide, by decide, by decide, by decide, by decide⟩

/-- Claim C5 witness (for the amended claim): at the single point
`(0, 0)` with maxDegree 1, the recorded lead monomial of the first
degree-1 polynomial is in its support. -/
theorem claim_C5_witness :
    (((nullspace_polynomials [((0 : ℚ), 0)] 1).getD 1 default).polys.getD 0 []) ∈
        ((nullspace_polynomials [((0 : ℚ), 0)] 1).getD 1 default).polys ∧
      ltOf (((nullspace_polynomials [((0 : ℚ), 0)] 1).getD 1 default).polys.getD 0 []) ∈
        polySupport
          (((nullspace_polynomials [((0 : ℚ), 0)] 1).getD 1 default).polys.getD 0 []) :=
  ⟨by decide,
    (claim_C5_amended [((0 : ℚ), 0)] 1
      ((nullspace_polynomials [((0 : ℚ), 0)] 1).getD 1 default)
      (((nullspace_polynomials [((0 : ℚ), 0)] 1).getD 1 default).polys.getD 0 [])
      (by decide) (by decide)).1⟩

/-- Claim C10: each monomial list is a prefix of the next degree's list
(the new degree block is appended at the end, so the driver's regenerated
list extends the previous one without reordering), and the length of the
degree-`d` list is `(d+1)(d+2)/2`. -/
theorem claim_C10 (d : ℕ) :
    (∃ t, monomials_up_to_degree (d + 1) = monomials_up_to_degree d ++ t) ∧
      (monomials_up_to_degree d).length = (d + 1) * (d + 2) / 2 :=
  ⟨⟨_, monos_succ d⟩, monos_length d⟩

end VanishingIdeal
